import Mathlib

/-! Verification of the ENCODE DCC MACS2 call-peak wrapper
(src/encode_task_macs2_chip.py): a shallow embedding of the
post-processing pipeline (rank sort, awk renumber/clamp/backfill,
top-N cap, boundary clip) and of the orchestration in the macs2
function, with theorems checking the design documentation. -/

/-- One narrowPeak interval record: the 10 canonical tab-separated fields.
Numeric fields are embedded as integers; field 8, pValue, is the key of
the sort step of the pipeline. -/
structure NarrowPeak where
  chrom : String
  chromStart : Int
  chromEnd : Int
  name : String
  score : Int
  strand : String
  signalValue : Int
  pValue : Int
  qValue : Int
  peak : Int
  deriving DecidableEq

/-- Decimal rendering of an integer field, as it appears on a tab-separated
line of the peaks file. -/
def intStr (i : Int) : String :=
  if i < 0 then "-" ++ Nat.repr i.natAbs else Nat.repr i.natAbs

/-- Serialization of a record as one tab-separated line, the form in which
the external sort utility compares whole lines. -/
def lineOf (r : NarrowPeak) : String :=
  String.intercalate "\t"
    [r.chrom, intStr r.chromStart, intStr r.chromEnd, r.name, intStr r.score,
     r.strand, intStr r.signalValue, intStr r.pValue, intStr r.qValue, intStr r.peak]

/-- Bytewise comparison of two character lists, the C-locale collation that
LC_COLLATE=C imposes on the last-resort whole-line comparison of sort. -/
def lexLe : List Char → List Char → Bool
  | [], _ => true
  | _ :: _, [] => false
  | a :: as, b :: bs =>
    if a.toNat = b.toNat then lexLe as bs else decide (a.toNat < b.toNat)

/-- The comparator realized by the command LC_COLLATE=C sort -S ..M -k 8gr,8gr
(line 106 of the source): field 8 descending under general-numeric comparison,
and, because no -s or --stable flag is passed, equal keys fall back to the
last-resort bytewise comparison of the whole line, ascending.
sortLE a b is true when a may be emitted before b. -/
def sortLE (a b : NarrowPeak) : Bool :=
  if a.pValue = b.pValue then lexLe (lineOf a).data (lineOf b).data
  else decide (b.pValue < a.pValue)

/-- The sort order of the external sort invocation, as a relation. -/
def precedes (a b : NarrowPeak) : Prop := sortLE a b = true

instance : DecidableRel precedes := fun a b => Bool.decEq (sortLE a b) true

/-- Output of the external sort step (cmd1, first stage): the records ordered
by the total preorder precedes. The comparator is total and transitive and a
stable sorting algorithm realizes exactly the observable behaviour of the
external utility, so an insertion sort is used as the executable embedding. -/
def sortPeaks (l : List NarrowPeak) : List NarrowPeak :=
  List.insertionSort precedes l

/-- The synthetic record name written by the awk stage for line number nr. -/
def peakName (nr : Nat) : String := "Peak_" ++ Nat.repr nr

/-- The awk program body of cmd1 (lines 107-109 of the source) applied to the
record on (1-based) line nr of the sorted stream: field 4 becomes Peak_nr, a
negative field 2 or field 3 is raised to 0 independently, and a field 10 equal
to the sentinel -1 is replaced by the clamped field 2 plus the truncating
integer division of clamped field 3 minus clamped field 2 plus 1 by 2. -/
def awkBody (nr : Nat) (r : NarrowPeak) : NarrowPeak :=
  let s := if r.chromStart < 0 then 0 else r.chromStart
  let e := if r.chromEnd < 0 then 0 else r.chromEnd
  let pk := if r.peak = -1 then s + Int.tdiv (e - s + 1) 2 else r.peak
  { r with name := peakName nr, chromStart := s, chromEnd := e, peak := pk }

/-- The awk stage as a stream transformer: NR starts at the given value and
grows by one per record; every record is emitted. -/
def awkRename : Nat → List NarrowPeak → List NarrowPeak
  | _, [] => []
  | nr, r :: rs => awkBody nr r :: awkRename (nr + 1) rs

/-- The full normalization stage of cmd1: awk over the stream with NR = 1. -/
def normalizePeaks (l : List NarrowPeak) : List NarrowPeak := awkRename 1 l

/-- Sorted, normalized and truncated records: cmd1 piped into head -n cap
(cmd2, lines 116-120 of the source). -/
def cappedPeaks (cap : Nat) (raw : List NarrowPeak) : List NarrowPeak :=
  List.take cap (normalizePeaks (sortPeaks raw))

/-- Modelled from the spec: the per-record behaviour of bed_clip, which lives
in encode_lib_genomic and is not under src. Start is clamped to at least 0 and
end to at most the chromosome length minus one; a record whose chromosome is
absent from the size table, or whose clamped start exceeds its clamped end, is
dropped. -/
def clipRec (chrsz : String → Option Int) (r : NarrowPeak) : Option NarrowPeak :=
  match chrsz r.chrom with
  | none => none
  | some len =>
    let s := max r.chromStart 0
    let e := min r.chromEnd (len - 1)
    if e < s then none else some { r with chromStart := s, chromEnd := e }

/-- Modelled from the spec: bed_clip over a record stream, order preserving
for the records it keeps. -/
def bedClip (chrsz : String → Option Int) (l : List NarrowPeak) : List NarrowPeak :=
  List.filterMap (clipRec chrsz) l

/-- Record content of the final artifact: raw caller output sorted,
normalized, capped and clipped (steps 3 to 6 of the pipeline). -/
def pipelineOutput (chrsz : String → Option Int) (cap : Nat)
    (raw : List NarrowPeak) : List NarrowPeak :=
  bedClip chrsz (cappedPeaks cap raw)

/-- The argument values interpolated into the macs2 callpeak command line
(cmd0, lines 87-98 of the source). -/
structure CallpeakArgs where
  t : String
  c : Option String
  n : String
  g : String
  p : String
  shift : Int
  extsize : Int
  deriving DecidableEq

/-- Observable outcome of the naming and invocation section of the macs2
function (lines 58-98): whether the control was subsampled, the base name of
the final artifact, and the arguments handed to the external caller. -/
structure Macs2Setup where
  didSubsample : Bool
  outBasename : String
  callArgs : CallpeakArgs
  deriving DecidableEq

/-- The os.path.join of the output directory and a relative name, for the
arguments used by the source (an empty directory gives the name itself). -/
def joinPath (d b : String) : String := if d = "" then b else d ++ "/" ++ b

/-- Lines 58-98 of the macs2 function. basenameOf stands for the composition
of os.path.basename and strip_ext_ta (encode_lib_common, outside src) and
subOf for the output path of subsample_ta_se or subsample_ta_pe
(encode_lib_genomic, outside src); both are kept abstract. A non-empty ctl_ta
selects the control branch: the control is subsampled when ctl_subsample is
non-zero, the base names are joined with the separator _x_, a joined name
longer than 200 characters is replaced by the sample base name plus
_x_control, and the control path is passed as the -c argument. The shift
placeholder of cmd0 is filled with the literal 0 of line 96 and extsize with
fraglen. -/
def macs2Setup (basenameOf subOf : String → String)
    (ta ctl_ta gensz pval : String) (shift fraglen : Int)
    (ctl_subsample : Nat) (out_dir : String) : Macs2Setup :=
  let basename_ta := basenameOf ta
  if ctl_ta = "" then
    { didSubsample := false
      outBasename := basename_ta
      callArgs :=
        { t := ta, c := none, n := joinPath out_dir basename_ta, g := gensz,
          p := pval, shift := 0, extsize := fraglen } }
  else
    let doSub : Bool := ctl_subsample != 0
    let ctl2 := if doSub then subOf ctl_ta else ctl_ta
    let joined := basename_ta ++ "_x_" ++ basenameOf ctl2
    let outB := if joined.length > 200 then basename_ta ++ "_x_control" else joined
    { didSubsample := doSub
      outBasename := outB
      callArgs :=
        { t := ta, c := if ctl2 = "" then none else some ctl2,
          n := joinPath out_dir outB, g := gensz, p := pval, shift := 0,
          extsize := fraglen } }

/-- Lines 49-50 of parse_arguments: a single positional TAGALIGN path gets an
empty-string control appended. -/
def padTas (tas : List String) : List String :=
  if tas.length = 1 then tas ++ [""] else tas

/-- Which external steps of one macs2 run return normally: the callpeak
process (cmd0), the sort and awk pipe (cmd1), the head command (cmd2) and the
bed_clip call. -/
structure RunEnv where
  macs2Ok : Bool
  sortOk : Bool
  headOk : Bool
  clipOk : Bool
  deriving DecidableEq

/-- Presence of the transient files of one run: the raw caller output
matching the glob of line 128, the sorted and normalized temporary file, and
the truncated temporary file. -/
structure Artifacts where
  rawPeaks : Bool
  tmp : Bool
  tmp2 : Bool
  deriving DecidableEq

/-- Control flow of the macs2 function from cmd0 to return (lines 87-131).
Each external step either returns normally or raises; a raise propagates out
of the function at once, so the rm_f calls of lines 125-129 are reached only
after bed_clip has returned. The flag of the result is true when the function
returns normally, and the artifact set records which transient files exist at
the moment the function exits. Failure propagation of run_shell_cmd and
bed_clip is modelled from the spec (they live outside src). -/
def macs2Run (env : RunEnv) : Bool × Artifacts :=
  let s1 : Artifacts := { rawPeaks := true, tmp := false, tmp2 := false }
  if !env.macs2Ok then (false, s1) else
  let s2 := { s1 with tmp := true }
  if !env.sortOk then (false, s2) else
  let s3 := { s2 with tmp2 := true }
  if !env.headOk then (false, s3) else
  if !env.clipOk then (false, s3) else
  let s4 := { s3 with tmp := false, tmp2 := false }
  let s5 := { s4 with rawPeaks := false }
  (true, s5)

/-- A run in which every step up to and including head succeeds and bed_clip
raises. -/
def envClipFail : RunEnv :=
  { macs2Ok := true, sortOk := true, headOk := true, clipOk := false }

/-- A fully successful run. -/
def envAllOk : RunEnv :=
  { macs2Ok := true, sortOk := true, headOk := true, clipOk := true }

/-- Decimal digits of a natural number, most significant first; the reference
against which the digit rendering of Nat.repr is proved injective. -/
def decDigits (n : Nat) : List Nat :=
  if _h : n < 10 then [n] else decDigits (n / 10) ++ [n % 10]
termination_by n
decreasing_by exact Nat.div_lt_self (by omega) (by omega)

/-- Value of a most-significant-first decimal digit list. -/
def decVal (ds : List Nat) : Nat := ds.foldl (fun a d => 10 * a + d) 0

/-- A record builder for the concrete test data below. -/
def mkPeak (c : String) (s e : Int) (nm : String) (sv p pk : Int) : NarrowPeak :=
  { chrom := c, chromStart := s, chromEnd := e, name := nm, score := 0,
    strand := ".", signalValue := sv, pValue := p, qValue := -1, peak := pk }

/-- Record with low field 7 and high field 8. -/
def pA : NarrowPeak := mkPeak "chr1" 0 100 "a" 1 10 5

/-- Record with high field 7 and low field 8. -/
def pB : NarrowPeak := mkPeak "chr1" 0 100 "b" 2 5 5

/-- Record on chr2, sharing its field 8 value with qY. -/
def qX : NarrowPeak := mkPeak "chr2" 0 100 "x" 3 7 5

/-- Record on chr1 whose serialized line compares below the line of qX. -/
def qY : NarrowPeak := mkPeak "chr1" 0 100 "y" 3 7 5

/-- Record carrying the sentinel summit value -1, with start 10 and end 19. -/
def sSent : NarrowPeak := mkPeak "chr1" 10 19 "s" 1 3 (-1)

/-- Record carrying the non-sentinel summit value 7. -/
def sKeep : NarrowPeak := mkPeak "chr1" 10 19 "k" 1 3 7

/-- A three-record raw caller output used by the end-to-end witnesses. -/
def rawS : List NarrowPeak :=
  [mkPeak "chr1" 0 10 "a" 1 5 (-1), mkPeak "chr1" 20 30 "b" 1 20 3,
   mkPeak "chrUn" 0 5 "c" 1 1 (-1)]

/-- A one-chromosome size table: chr1 has length 1000. -/
def chrszS (c : String) : Option Int := if c = "chr1" then some 1000 else none

/-- The top-ranked record of the pipeline output on rawS. -/
def rFinal1 : NarrowPeak :=
  { chrom := "chr1", chromStart := 20, chromEnd := 30, name := "Peak_1",
    score := 0, strand := ".", signalValue := 1, pValue := 20, qValue := -1,
    peak := 3 }

/-- A control path whose base name is 250 characters long. -/
def ctlLong : String := ⟨List.replicate 250 'c'⟩

/-! Helper lemmas about the comparator and the sort stage. -/

theorem lexLe_total : ∀ xs ys : List Char, lexLe xs ys = true ∨ lexLe ys xs = true
  | [], _ => Or.inl rfl
  | _ :: _, [] => Or.inr rfl
  | a :: as, b :: bs => by
    by_cases h : a.toNat = b.toNat
    · simpa [lexLe, h] using lexLe_total as bs
    · have h2 : ¬ b.toNat = a.toNat := fun hs => h hs.symm
      simp [lexLe, h, h2]

theorem lexLe_trans : ∀ xs ys zs : List Char,
    lexLe xs ys = true → lexLe ys zs = true → lexLe xs zs = true
  | [], _, _ => by intro _ _; rfl
  | _ :: _, [], _ => by intro h _; simp [lexLe] at h
  | _ :: _, _ :: _, [] => by intro _ h; simp [lexLe] at h
  | a :: as, b :: bs, c :: cs => by
    intro h1 h2
    by_cases hab : a.toNat = b.toNat
    · by_cases hbc : b.toNat = c.toNat
      · simp only [lexLe] at h1 h2 ⊢
        rw [if_pos hab] at h1
        rw [if_pos hbc] at h2
        rw [if_pos (hab.trans hbc)]
        exact lexLe_trans as bs cs h1 h2
      · simp [lexLe, hbc] at h2
        have hac : ¬ a.toNat = c.toNat := by omega
        simp [lexLe, hac]
        omega
    · simp [lexLe, hab] at h1
      by_cases hbc : b.toNat = c.toNat
      · have hac : ¬ a.toNat = c.toNat := by omega
        simp [lexLe, hac]
        omega
      · simp [lexLe, hbc] at h2
        have hac : ¬ a.toNat = c.toNat := by omega
        simp [lexLe, hac]
        omega

theorem sortLE_total (a b : NarrowPeak) : sortLE a b = true ∨ sortLE b a = true := by
  by_cases h : a.pValue = b.pValue
  · simpa [sortLE, h] using lexLe_total (lineOf a).data (lineOf b).data
  · have h2 : ¬ b.pValue = a.pValue := fun hs => h hs.symm
    simp [sortLE, h, h2]

theorem sortLE_trans (a b c : NarrowPeak) :
    sortLE a b = true → sortLE b c = true → sortLE a c = true := by
  intro h1 h2
  by_cases hab : a.pValue = b.pValue
  · by_cases hbc : b.pValue = c.pValue
    · simp only [sortLE] at h1 h2 ⊢
      rw [if_pos hab] at h1
      rw [if_pos hbc] at h2
      rw [if_pos (hab.trans hbc)]
      exact lexLe_trans _ _ _ h1 h2
    · simp [sortLE, hbc] at h2
      have hac : ¬ a.pValue = c.pValue := by omega
      simp [sortLE, hac]
      omega
  · simp [sortLE, hab] at h1
    by_cases hbc : b.pValue = c.pValue
    · have hac : ¬ a.pValue = c.pValue := by omega
      simp [sortLE, hac]
      omega
    · simp [sortLE, hbc] at h2
      have hac : ¬ a.pValue = c.pValue := by omega
      simp [sortLE, hac]
      omega

theorem sortPeaks_perm (l : List NarrowPeak) : List.Perm (sortPeaks l) l :=
  List.perm_insertionSort precedes l

theorem sortPeaks_sorted (l : List NarrowPeak) :
    List.Pairwise precedes (sortPeaks l) := by
  haveI : IsTotal NarrowPeak precedes := ⟨fun a b => sortLE_total a b⟩
  haveI : IsTrans NarrowPeak precedes := ⟨fun a b c => sortLE_trans a b c⟩
  exact List.sorted_insertionSort precedes l

theorem sortLE_pval_le {a b : NarrowPeak} (h : sortLE a b = true) :
    b.pValue ≤ a.pValue := by
  by_cases hp : a.pValue = b.pValue
  · omega
  · simp [sortLE, hp] at h
    omega

/-! Injectivity of the decimal rendering used by the awk renaming. -/

theorem decDigits_of_lt {n : Nat} (h : n < 10) : decDigits n = [n] := by
  unfold decDigits
  simp [h]

theorem decDigits_of_ge {n : Nat} (h : ¬ n < 10) :
    decDigits n = decDigits (n / 10) ++ [n % 10] := by
  conv_lhs => unfold decDigits
  simp [h]

theorem decVal_decDigits : ∀ n : Nat, decVal (decDigits n) = n := by
  intro n
  induction n using Nat.strong_induction_on with
  | _ n ih =>
    by_cases h : n < 10
    · simp [decDigits_of_lt h, decVal]
    · rw [decDigits_of_ge h]
      have hlt : n / 10 < n := Nat.div_lt_self (by omega) (by omega)
      have := ih (n / 10) hlt
      simp only [decVal, List.foldl_append, List.foldl_cons, List.foldl_nil] at this ⊢
      rw [this]
      omega

theorem decDigits_lt_ten : ∀ n : Nat, ∀ d ∈ decDigits n, d < 10 := by
  intro n
  induction n using Nat.strong_induction_on with
  | _ n ih =>
    by_cases h : n < 10
    · simp [decDigits_of_lt h]
      omega
    · rw [decDigits_of_ge h]
      intro d hd
      rcases List.mem_append.mp hd with hd | hd
      · exact ih (n / 10) (Nat.div_lt_self (by omega) (by omega)) d hd
      · simp at hd
        omega

theorem toDigitsCore_eq_decDigits :
    ∀ (f n : Nat) (acc : List Char), n < f →
      Nat.toDigitsCore 10 f n acc = (decDigits n).map Nat.digitChar ++ acc := by
  intro f
  induction f with
  | zero => intro n acc h; omega
  | succ f ih =>
    intro n acc h
    rw [Nat.toDigitsCore]
    by_cases h10 : n / 10 = 0
    · have hn : n < 10 := by omega
      simp [h10, decDigits_of_lt hn, Nat.mod_eq_of_lt hn]
    · have hge : ¬ n < 10 := by omega
      have hf : n / 10 < f := by omega
      simp only [h10, if_neg, ih (n / 10) _ hf]
      rw [decDigits_of_ge hge]
      simp

theorem toDigits_eq_decDigits (n : Nat) :
    Nat.toDigits 10 n = (decDigits n).map Nat.digitChar := by
  rw [Nat.toDigits, toDigitsCore_eq_decDigits (n + 1) n [] (by omega), List.append_nil]

theorem digitChar_inj_lt :
    ∀ a, a < 10 → ∀ b, b < 10 → Nat.digitChar a = Nat.digitChar b → a = b := by
  decide

theorem map_digitChar_inj :
    ∀ xs ys : List Nat, (∀ d ∈ xs, d < 10) → (∀ d ∈ ys, d < 10) →
      xs.map Nat.digitChar = ys.map Nat.digitChar → xs = ys
  | [], [], _, _, _ => rfl
  | [], _ :: _, _, _, h => by simp at h
  | _ :: _, [], _, _, h => by simp at h
  | x :: xs, y :: ys, hx, hy, h => by
    simp only [List.map_cons, List.cons.injEq] at h
    have hhead : x = y :=
      digitChar_inj_lt x (hx x (by simp)) y (hy y (by simp)) h.1
    have htail : xs = ys :=
      map_digitChar_inj xs ys (fun d hd => hx d (by simp [hd]))
        (fun d hd => hy d (by simp [hd])) h.2
    rw [hhead, htail]

theorem nat_repr_inj {m n : Nat} (h : Nat.repr m = Nat.repr n) : m = n := by
  have hdata : Nat.toDigits 10 m = Nat.toDigits 10 n := congrArg String.data h
  rw [toDigits_eq_decDigits, toDigits_eq_decDigits] at hdata
  have hdd : decDigits m = decDigits n :=
    map_digitChar_inj _ _ (decDigits_lt_ten m) (decDigits_lt_ten n) hdata
  rw [← decVal_decDigits m, ← decVal_decDigits n, hdd]

theorem peakName_inj {m n : Nat} (h : peakName m = peakName n) : m = n := by
  apply nat_repr_inj
  have hdata := congrArg String.data h
  have hdata2 : "Peak_".data ++ (Nat.repr m).data = "Peak_".data ++ (Nat.repr n).data :=
    hdata
  have := List.append_cancel_left hdata2
  cases hm : Nat.repr m
  cases hn : Nat.repr n
  rw [hm, hn] at this
  simp_all

/-! Helper lemmas about the awk stage and the clipping stage. -/

theorem awkBody_name (nr : Nat) (r : NarrowPeak) : (awkBody nr r).name = peakName nr := rfl

theorem awkRename_length : ∀ (k : Nat) (l : List NarrowPeak),
    (awkRename k l).length = l.length
  | _, [] => rfl
  | k, _ :: rs => by simp [awkRename, awkRename_length (k + 1) rs]

theorem awkRename_getElem? : ∀ (k i : Nat) (l : List NarrowPeak),
    (awkRename k l)[i]? = Option.map (awkBody (k + i)) l[i]?
  | _, _, [] => by simp [awkRename]
  | k, 0, r :: rs => by simp [awkRename]
  | k, i + 1, r :: rs => by
    have := awkRename_getElem? (k + 1) i rs
    simpa [awkRename, Nat.add_assoc, Nat.add_comm 1 i] using this

theorem mem_awkRename_name : ∀ (k : Nat) (l : List NarrowPeak) (r : NarrowPeak),
    r ∈ awkRename k l → ∃ m, k ≤ m ∧ r.name = peakName m
  | _, [], _ => by simp [awkRename]
  | k, a :: l, r => by
    intro h
    rcases List.mem_cons.mp h with h | h
    · exact ⟨k, Nat.le_refl k, by rw [h, awkBody_name]⟩
    · obtain ⟨m, hm, hname⟩ := mem_awkRename_name (k + 1) l r h
      exact ⟨m, by omega, hname⟩

theorem awkRename_names_pairwise : ∀ (k : Nat) (l : List NarrowPeak),
    List.Pairwise (fun a b : NarrowPeak => a.name ≠ b.name) (awkRename k l)
  | _, [] => List.Pairwise.nil
  | k, a :: l => by
    refine List.Pairwise.cons ?_ (awkRename_names_pairwise (k + 1) l)
    intro b hb
    obtain ⟨m, hm, hname⟩ := mem_awkRename_name (k + 1) l b hb
    rw [awkBody_name, hname]
    intro hEq
    have := peakName_inj hEq
    omega

theorem clipRec_name {chrsz : String → Option Int} {a r : NarrowPeak}
    (h : clipRec chrsz a = some r) : r.name = a.name := by
  unfold clipRec at h
  cases hc : chrsz a.chrom with
  | none => rw [hc] at h; cases h
  | some len =>
    rw [hc] at h
    dsimp only at h
    split at h
    · cases h
    · cases h
      rfl

theorem bedClip_names_sublist (chrsz : String → Option Int) :
    ∀ l : List NarrowPeak,
      List.Sublist ((bedClip chrsz l).map NarrowPeak.name) (l.map NarrowPeak.name)
  | [] => by simp [bedClip]
  | a :: l => by
    simp only [bedClip, List.filterMap_cons, List.map_cons]
    cases hc : clipRec chrsz a with
    | none => exact (bedClip_names_sublist chrsz l).cons a.name
    | some r =>
      simp only [List.map_cons, clipRec_name hc]
      exact (bedClip_names_sublist chrsz l).cons₂ a.name

/-! Theorems for the claims of the design document. -/

theorem sortPeaks_pApB : sortPeaks [pA, pB] = [pA, pB] := by decide

/-- C1, counterexample: the sorted output of the records pA and pB is not in
descending order of field 7 (signalValue), because the sort key of the command
is field 8. -/
theorem sorter_not_ordered_by_field7 :
    ¬ List.Chain' (fun a b : NarrowPeak => b.signalValue ≤ a.signalValue)
      (sortPeaks [pA, pB]) := by
  rw [sortPeaks_pApB]
  intro h
  have h1 := (List.chain'_cons.mp h).1
  revert h1
  decide

/-- C1, amended: the sort stage emits the same records ordered by field 8
(pValue) descending, so every adjacent pair of the sorted output has the
earlier pValue at least the later pValue. -/
theorem sorter_descending_by_field8 (l : List NarrowPeak) :
    List.Perm (sortPeaks l) l ∧
      List.Chain' (fun a b : NarrowPeak => b.pValue ≤ a.pValue) (sortPeaks l) := by
  refine ⟨sortPeaks_perm l, ?_⟩
  have h2 : List.Pairwise (fun a b : NarrowPeak => b.pValue ≤ a.pValue) (sortPeaks l) :=
    (sortPeaks_sorted l).imp fun hab => sortLE_pval_le hab
  exact h2.chain'

/-- C2, counterexample: on the record sSent with the sentinel summit, the awk
stage does not write the midpoint offset floor of (end - start + 1) / 2. -/
theorem summit_backfill_not_offset :
    (awkBody 1 sSent).peak ≠ Int.fdiv (sSent.chromEnd - sSent.chromStart + 1) 2 := by
  decide

/-- C2, amended: for a record whose field 10 is the sentinel -1, the awk stage
writes the clamped start plus the truncated half of (clamped end - clamped
start + 1), the absolute midpoint coordinate rather than the offset from
start; a non-sentinel field 10 is kept unchanged. -/
theorem summit_backfill_is_absolute_midpoint (nr : Nat) (r : NarrowPeak) :
    (r.peak = -1 → (awkBody nr r).peak =
      (if r.chromStart < 0 then 0 else r.chromStart) +
        Int.tdiv ((if r.chromEnd < 0 then 0 else r.chromEnd) -
          (if r.chromStart < 0 then 0 else r.chromStart) + 1) 2) ∧
    (r.peak ≠ -1 → (awkBody nr r).peak = r.peak) := by
  constructor <;> intro h <;> simp [awkBody, h]

theorem summit_backfill_is_absolute_midpoint_witness :
    (awkBody 3 sSent).peak = 15 ∧ (awkBody 3 sKeep).peak = 7 := by
  constructor
  · have h := (summit_backfill_is_absolute_midpoint 3 sSent).1 rfl
    rw [h]
    decide
  · exact (summit_backfill_is_absolute_midpoint 3 sKeep).2 (by decide)

/-- C3, counterexample: with the configured shift option equal to 7, the
external caller is invoked with shift 0, not 7. -/
theorem callpeak_ignores_configured_shift :
    (macs2Setup id id "a.tagAlign" "ctl.tagAlign" "hs" "0.01" 7 200 0 "").callArgs.shift ≠ 7 := by
  decide

/-- C3, amended: the invocation passes the sample file, the genome size, the
p-value threshold, the fragment length as extsize and the control when one is
present, but the shift argument is always the literal 0, whatever the
configured shift option. -/
theorem callpeak_invoked_with_shift_zero (basenameOf subOf : String → String)
    (ta ctl_ta gensz pval out_dir : String) (shift fraglen : Int)
    (ctl_subsample : Nat) :
    (macs2Setup basenameOf subOf ta ctl_ta gensz pval shift fraglen ctl_subsample out_dir).callArgs.shift = 0 ∧
    (macs2Setup basenameOf subOf ta ctl_ta gensz pval shift fraglen ctl_subsample out_dir).callArgs.t = ta ∧
    (macs2Setup basenameOf subOf ta ctl_ta gensz pval shift fraglen ctl_subsample out_dir).callArgs.g = gensz ∧
    (macs2Setup basenameOf subOf ta ctl_ta gensz pval shift fraglen ctl_subsample out_dir).callArgs.p = pval ∧
    (macs2Setup basenameOf subOf ta ctl_ta gensz pval shift fraglen ctl_subsample out_dir).callArgs.extsize = fraglen ∧
    (ctl_ta = "" →
      (macs2Setup basenameOf subOf ta ctl_ta gensz pval shift fraglen ctl_subsample out_dir).callArgs.c = none) ∧
    (ctl_ta ≠ "" → ctl_subsample = 0 →
      (macs2Setup basenameOf subOf ta ctl_ta gensz pval shift fraglen ctl_subsample out_dir).callArgs.c = some ctl_ta) := by
  by_cases h : ctl_ta = ""
  · simp [macs2Setup, h]
  · simp only [macs2Setup, h, if_neg]
    refine ⟨rfl, rfl, rfl, rfl, rfl, by simp [h], ?_⟩
    intro _ hsub
    simp [hsub, h]

theorem callpeak_invoked_with_shift_zero_witness :
    (macs2Setup id id "a.tagAlign" "ctl.tagAlign" "hs" "0.01" 7 200 0 "").callArgs.shift = 0 ∧
    (macs2Setup id id "a.tagAlign" "ctl.tagAlign" "hs" "0.01" 7 200 0 "").callArgs.c = some "ctl.tagAlign" := by
  have h := callpeak_invoked_with_shift_zero id id "a.tagAlign" "ctl.tagAlign" "hs" "0.01" "" 7 200 0
  exact ⟨h.1, h.2.2.2.2.2.2 (by decide) rfl⟩

/-- C4, counterexample: when bed_clip raises after a successful sort and head,
the macs2 function exits without deleting the two temporary files. -/
theorem cleanup_skipped_when_clip_fails :
    (macs2Run envClipFail).1 = false ∧ (macs2Run envClipFail).2.tmp = true ∧
      (macs2Run envClipFail).2.tmp2 = true := by
  decide

/-- C4, amended: the rm_f calls run only on the fully successful path; a run
that fails at the clipping step, or earlier, returns with the temporary files
created so far still present. -/
theorem cleanup_only_on_success_path (env : RunEnv) :
    ((macs2Run env).1 = true →
      (macs2Run env).2.tmp = false ∧ (macs2Run env).2.tmp2 = false ∧
        (macs2Run env).2.rawPeaks = false) ∧
    (env.macs2Ok = true → env.sortOk = true → env.headOk = true → env.clipOk = false →
      (macs2Run env).1 = false ∧ (macs2Run env).2.tmp = true ∧
        (macs2Run env).2.tmp2 = true) ∧
    (env.macs2Ok = true → env.sortOk = false →
      (macs2Run env).1 = false ∧ (macs2Run env).2.tmp = true) := by
  obtain ⟨a, b, c, d⟩ := env
  cases a <;> cases b <;> cases c <;> cases d <;> simp [macs2Run]

theorem cleanup_only_on_success_path_witness :
    (macs2Run envAllOk).2.tmp = false ∧ (macs2Run envAllOk).2.tmp2 = false ∧
      (macs2Run envAllOk).2.rawPeaks = false :=
  (cleanup_only_on_success_path envAllOk).1 (by decide)

/-- C5, counterexample: the records qX and qY share the field 8 key, yet the
sort emits qY before qX, reversing their input order, because equal keys fall
back to the whole-line comparison rather than input position. -/
theorem sorter_not_stable_on_ties :
    qX.pValue = qY.pValue ∧ qX ≠ qY ∧ sortPeaks [qX, qY] = [qY, qX] := by
  decide

/-- C5, amended: the sort emits the same records, and an adjacent pair with
equal field 8 keys is ordered by the bytewise comparison of the serialized
lines, ascending, not by input position. -/
theorem sorter_ties_by_whole_line (l : List NarrowPeak) :
    List.Perm (sortPeaks l) l ∧
      List.Pairwise (fun a b : NarrowPeak => b.pValue < a.pValue ∨
        (a.pValue = b.pValue ∧ lexLe (lineOf a).data (lineOf b).data = true))
        (sortPeaks l) := by
  refine ⟨sortPeaks_perm l, (sortPeaks_sorted l).imp ?_⟩
  intro a b hab
  by_cases hp : a.pValue = b.pValue
  · unfold precedes sortLE at hab
    rw [if_pos hp] at hab
    exact Or.inr ⟨hp, hab⟩
  · unfold precedes sortLE at hab
    rw [if_neg hp] at hab
    left
    simpa using hab

/-- C6: the final record set has at most cap records: the head step keeps the
first cap records and the clipping step only drops records. -/
theorem final_record_count_le_cap (chrsz : String → Option Int) (cap : Nat)
    (raw : List NarrowPeak) :
    (pipelineOutput chrsz cap raw).length ≤ cap := by
  have h1 : (pipelineOutput chrsz cap raw).length ≤ (cappedPeaks cap raw).length :=
    List.length_filterMap_le _ _
  have h2 : (cappedPeaks cap raw).length ≤ cap := by
    simp [cappedPeaks]
  omega

/-- C7: every record of the final output carries the name Peak_ followed by
the 1-based position, in the sorted-then-capped sequence, of the record it
was clipped from, and the names of the final output are pairwise distinct. -/
theorem final_names_match_capped_rank (chrsz : String → Option Int) (cap : Nat)
    (raw : List NarrowPeak) :
    (∀ r ∈ pipelineOutput chrsz cap raw,
      ∃ i a, (cappedPeaks cap raw)[i]? = some a ∧ a.name = peakName (i + 1) ∧
        r.name = peakName (i + 1)) ∧
    List.Pairwise (fun a b : NarrowPeak => a.name ≠ b.name)
      (pipelineOutput chrsz cap raw) := by
  constructor
  · intro r hr
    obtain ⟨a, ha, hc⟩ := List.mem_filterMap.mp hr
    obtain ⟨i, hi⟩ := List.getElem?_of_mem ha
    have hlt : i < (cappedPeaks cap raw).length := by
      by_contra hge
      rw [List.getElem?_eq_none (by omega)] at hi
      cases hi
    have hcap : i < cap := by
      simp only [cappedPeaks, List.length_take] at hlt
      omega
    have hiL : (normalizePeaks (sortPeaks raw))[i]? = some a := by
      have := hi
      simp only [cappedPeaks] at this
      rwa [List.getElem?_take_of_lt hcap] at this
    have hname : a.name = peakName (i + 1) := by
      rw [normalizePeaks, awkRename_getElem? 1 i] at hiL
      obtain ⟨b, _, hb2⟩ := Option.map_eq_some'.mp hiL
      rw [← hb2, awkBody_name, Nat.add_comm]
    exact ⟨i, a, hi, hname, by rw [clipRec_name hc, hname]⟩
  · have hcap : List.Pairwise (fun a b : NarrowPeak => a.name ≠ b.name)
        (cappedPeaks cap raw) :=
      (awkRename_names_pairwise 1 (sortPeaks raw)).sublist
        (List.take_sublist cap _)
    have h1 : List.Pairwise (fun x y : String => x ≠ y)
        ((cappedPeaks cap raw).map NarrowPeak.name) :=
      List.pairwise_map.mpr hcap
    have h2 := List.Pairwise.sublist (bedClip_names_sublist chrsz (cappedPeaks cap raw)) h1
    exact List.pairwise_map.mp h2

set_option maxRecDepth 4000 in
theorem final_names_match_capped_rank_witness :
    ∃ i a, (cappedPeaks 2 rawS)[i]? = some a ∧ a.name = peakName (i + 1) ∧
      rFinal1.name = peakName (i + 1) :=
  (final_names_match_capped_rank chrszS 2 rawS).1 rFinal1 (by decide)

/-- C8: the awk stage raises a negative start to 0 and a negative end to 0
independently, modifies no field other than name, start, end and summit,
drops no record and keeps every record at its position. -/
theorem normalizer_clamps_independently_and_preserves :
    (∀ (nr : Nat) (r : NarrowPeak),
      (awkBody nr r).chrom = r.chrom ∧ (awkBody nr r).score = r.score ∧
      (awkBody nr r).strand = r.strand ∧
      (awkBody nr r).signalValue = r.signalValue ∧
      (awkBody nr r).pValue = r.pValue ∧ (awkBody nr r).qValue = r.qValue ∧
      (awkBody nr r).chromStart = (if r.chromStart < 0 then 0 else r.chromStart) ∧
      (awkBody nr r).chromEnd = (if r.chromEnd < 0 then 0 else r.chromEnd)) ∧
    (∀ (k : Nat) (l : List NarrowPeak), (awkRename k l).length = l.length) ∧
    (∀ (k i : Nat) (l : List NarrowPeak),
      (awkRename k l)[i]? = Option.map (awkBody (k + i)) l[i]?) :=
  ⟨fun _ _ => ⟨rfl, rfl, rfl, rfl, rfl, rfl, rfl, rfl⟩,
    awkRename_length, awkRename_getElem?⟩

/-- C9: with a control sample and no subsampling, the final artifact base name
is the sample base name joined to the control base name by the separator _x_,
except that a joined name longer than 200 characters is replaced by the sample
base name followed by _x_control. -/
theorem control_naming_placeholder_over_200 (basenameOf subOf : String → String)
    (ta ctl_ta gensz pval out_dir : String) (shift fraglen : Int)
    (hc : ctl_ta ≠ "") :
    ((basenameOf ta ++ "_x_" ++ basenameOf ctl_ta).length > 200 →
      (macs2Setup basenameOf subOf ta ctl_ta gensz pval shift fraglen 0 out_dir).outBasename =
        basenameOf ta ++ "_x_control") ∧
    (¬ (basenameOf ta ++ "_x_" ++ basenameOf ctl_ta).length > 200 →
      (macs2Setup basenameOf subOf ta ctl_ta gensz pval shift fraglen 0 out_dir).outBasename =
        basenameOf ta ++ "_x_" ++ basenameOf ctl_ta) := by
  constructor <;> intro h <;> simp [macs2Setup, hc] <;> intro h2 <;>
    simp [String.length_append] at h <;> omega

set_option maxRecDepth 10000 in
theorem control_naming_placeholder_over_200_witness :
    (macs2Setup id id "sample" ctlLong "hs" "0.01" 0 200 0 "").outBasename =
      "sample_x_control" := by
  have h := (control_naming_placeholder_over_200 id id "sample" ctlLong "hs" "0.01"
    "" 0 200 (by decide)).1 (by decide)
  exact h.trans (by decide)

/-- C10: a single positional TAGALIGN path gets an empty-string control
appended, and an empty control skips the whole control branch: no control
subsampling happens, no control argument is passed to the caller, and the
final artifact base name comes from the sample alone. -/
theorem single_ta_skips_control_branch :
    (∀ t : String, padTas [t] = [t, ""]) ∧
    (∀ (basenameOf subOf : String → String) (ta gensz pval out_dir : String)
        (shift fraglen : Int) (ctl_subsample : Nat),
      (macs2Setup basenameOf subOf ta "" gensz pval shift fraglen ctl_subsample out_dir).didSubsample = false ∧
      (macs2Setup basenameOf subOf ta "" gensz pval shift fraglen ctl_subsample out_dir).callArgs.c = none ∧
      (macs2Setup basenameOf subOf ta "" gensz pval shift fraglen ctl_subsample out_dir).outBasename = basenameOf ta) := by
  constructor
  · intro t
    simp [padTas]
  · intro basenameOf subOf ta gensz pval out_dir shift fraglen ctl_subsample
    simp [macs2Setup]
